import Mathlib

/-!
Verification of the search subsystem of a media-cataloging backend: the text
tokenizer, the generic inverted-index engine, the studio document adapter and
rebuild orchestrator, the config hot-reload handler and the scan endpoint guard.

The studio adapter (`src/search/studio.ts`), the config watcher
(`src/config/index.ts`) and the scan route (`src/routers/scan.ts`) are
translated from the sources.  The generic `SearchIndex` engine and the
tokenizer (`src/search/engine.ts`, `src/search/tokenize.ts`) are imported by
the sources but their implementation is not among the visible files, so they
are modelled from the specification; each such definition says so in its doc
comment.
-/

namespace PV

/-! ## Tokenizer -/

/-- Modelled from the spec: the tokenizer "strips diacritics"
(`src/search/tokenize.ts` is not among the visible files).  Common Latin
diacritic letters are folded to their base letter; any other character is
returned unchanged. -/
def stripDiacritic (c : Char) : Char :=
  if c ∈ ['á', 'à', 'â', 'ä', 'ã', 'å', 'Á', 'À', 'Â', 'Ä', 'Ã', 'Å'] then 'a'
  else if c ∈ ['é', 'è', 'ê', 'ë', 'É', 'È', 'Ê', 'Ë'] then 'e'
  else if c ∈ ['í', 'ì', 'î', 'ï', 'Í', 'Ì', 'Î', 'Ï'] then 'i'
  else if c ∈ ['ó', 'ò', 'ô', 'ö', 'õ', 'Ó', 'Ò', 'Ô', 'Ö', 'Õ'] then 'o'
  else if c ∈ ['ú', 'ù', 'û', 'ü', 'Ú', 'Ù', 'Û', 'Ü'] then 'u'
  else if c ∈ ['ñ', 'Ñ'] then 'n'
  else if c ∈ ['ç', 'Ç'] then 'c'
  else c

/-- Modelled from the spec: the tokenizer "lower-cases, strips diacritics". -/
def normalizeChar (c : Char) : Char :=
  stripDiacritic c.toLower

/-- Modelled from the spec: token characters are the alphanumeric ones; the
tokenizer "splits on non-alphanumeric runs". -/
def isAlphanum (c : Char) : Bool :=
  c.isAlpha || c.isDigit

/-- Modelled from the spec: split a character list into its maximal runs of
alphanumeric characters.  `acc` holds the (reversed) run being collected. -/
def splitRuns : List Char → List Char → List (List Char)
  | [], acc => if acc.isEmpty then [] else [acc.reverse]
  | c :: rest, acc =>
    if isAlphanum c then splitRuns rest (c :: acc)
    else if acc.isEmpty then splitRuns rest []
    else acc.reverse :: splitRuns rest []

/-- Modelled from the spec: normalize every character, split on
non-alphanumeric runs, discard tokens shorter than 2 characters. -/
def tokenizeChars (cs : List Char) : List (List Char) :=
  (splitRuns (cs.map normalizeChar) []).filter (fun r => decide (2 ≤ r.length))

/-- Modelled from the spec: `tokenize(text)` — a pure, total function from a
string to its ordered token sequence (`src/search/tokenize.ts` is not among
the visible files). -/
def tokenize (s : String) : List String :=
  (tokenizeChars s.toList).map (fun r => String.mk r)

/-- Modelled from the spec: `tokenizeNames(names)` flattens `tokenize` over
each name, preserving encounter order, without deduplication. -/
def tokenizeNames (names : List String) : List String :=
  (names.map tokenize).flatten

/-! ## Inverted index engine

Modelled from the spec: `src/search/engine.ts` (the `SearchIndex` class used
by `src/search/studio.ts`) is not among the visible files.  The engine is
generic over a document type and an identifier type, with an injected
tokenizer strategy and an injected identifier-extraction strategy. -/

abbrev Token := String

/-- Modelled from the spec: the index owns the postings map (token → posting
set of identifiers) and the document records (identifier → token multiset
derived at add-time), kept in original indexing order. -/
structure IndexState (Id : Type) where
  postings : List (Token × List Id)
  docs : List (Id × List Token)
deriving DecidableEq

variable {Id : Type} [DecidableEq Id]

/-- Posting set of a token: the identifier list of the first entry for that
token, empty when the token has no entry. -/
def lookupPosting (ps : List (Token × List Id)) (t : Token) : List Id :=
  match ps with
  | [] => []
  | p :: rest => if p.1 = t then p.2 else lookupPosting rest t

/-- Modelled from the spec: insert `id` into the posting set of token `t`,
creating the entry when missing and never duplicating an identifier. -/
def insertPosting : List (Token × List Id) → Token → Id → List (Token × List Id)
  | [], t, id => [(t, [id])]
  | p :: rest, t, id =>
    if p.1 = t then
      (p.1, if id ∈ p.2 then p.2 else p.2 ++ [id]) :: rest
    else
      p :: insertPosting rest t id

/-- Insert `id` into the posting set of every token of `toks` in order. -/
def insertAll (id : Id) : List (Token × List Id) → List Token → List (Token × List Id)
  | ps, [] => ps
  | ps, t :: ts => insertAll id (insertPosting ps t id) ts

/-- Modelled from the spec: remove `id` from every posting set; any posting
set left empty is deleted from the postings map. -/
def removePostings (id : Id) : List (Token × List Id) → List (Token × List Id)
  | [] => []
  | p :: rest =>
    let ids := p.2.filter (fun x => ! decide (x = id))
    if ids.isEmpty then removePostings id rest
    else (p.1, ids) :: removePostings id rest

/-- Whether `id` currently has a document record. -/
def IndexState.isIndexed (s : IndexState Id) (id : Id) : Bool :=
  s.docs.any (fun p => decide (p.1 = id))

/-- Modelled from the spec: `remove(id)` — no-op when `id` is not indexed,
otherwise deletes the document record and removes `id` from every posting
set, pruning posting sets left empty. -/
def IndexState.removeId (s : IndexState Id) (id : Id) : IndexState Id :=
  if s.isIndexed id then
    { postings := removePostings id s.postings,
      docs := s.docs.filter (fun p => ! decide (p.1 = id)) }
  else s

/-- Modelled from the spec: `add(doc)` — computes the identifier and token
sequence with the injected strategies, first removes any existing postings of
that identifier, then inserts the identifier into each token's posting set and
records the document. -/
def IndexState.add {Doc : Type} (tokFn : Doc → List Token) (idFn : Doc → Id)
    (s : IndexState Id) (d : Doc) : IndexState Id :=
  let s' := s.removeId (idFn d)
  { postings := insertAll (idFn d) s'.postings (tokFn d),
    docs := s'.docs ++ [(idFn d, tokFn d)] }

/-- Modelled from the spec: `size()` — count of currently indexed
identifiers. -/
def IndexState.size (s : IndexState Id) : Nat :=
  s.docs.length

/-- Token multiset recorded for a document identifier. -/
def docTokens (docs : List (Id × List Token)) (id : Id) : List Token :=
  match docs with
  | [] => []
  | p :: rest => if p.1 = id then p.2 else docTokens rest id

/-- The query tokens whose posting set contains `id`. -/
def matchedTokens (ps : List (Token × List Id)) (qtoks : List Token) (id : Id) : List Token :=
  qtoks.filter (fun t => decide (id ∈ lookupPosting ps t))

/-- Count of distinct query tokens matched by `id`. -/
def matchCount (ps : List (Token × List Id)) (qtoks : List Token) (id : Id) : Nat :=
  (matchedTokens ps qtoks id).length

/-- Aggregate term frequency of `id` across its matched query tokens. -/
def aggFreq (s : IndexState Id) (qtoks : List Token) (id : Id) : Nat :=
  ((matchedTokens s.postings qtoks id).map (fun t => (docTokens s.docs id).count t)).sum

/-- Ranking key of a candidate: match count first, aggregate frequency
second. -/
def skey (s : IndexState Id) (qtoks : List Token) (id : Id) : Nat × Nat :=
  (matchCount s.postings qtoks id, aggFreq s qtoks id)

/-- `better a b` — key `a` ranks strictly before key `b`: higher match count,
or equal match count and higher aggregate frequency. -/
def better (a b : Nat × Nat) : Bool :=
  decide (b.1 < a.1) || (decide (b.1 = a.1) && decide (b.2 < a.2))

/-- Insert `x` in front of the first strictly worse element, so elements of
equal key keep their relative order. -/
def rankInsert (key : Id → Nat × Nat) (x : Id) : List Id → List Id
  | [] => [x]
  | y :: ys => if better (key x) (key y) then x :: y :: ys else y :: rankInsert key x ys

/-- Stable insertion sort by descending rank: fold the input in order into an
accumulator that stays sorted. -/
def rankSortAux (key : Id → Nat × Nat) : List Id → List Id → List Id
  | acc, [] => acc
  | acc, x :: xs => rankSortAux key (rankInsert key x acc) xs

/-- Sort identifiers by descending ranking key, stably. -/
def rankSort (key : Id → Nat × Nat) (l : List Id) : List Id :=
  rankSortAux key [] l

/-- Modelled from the spec: `search(query)` — tokenize the query with the
text tokenizer, take as candidates (in original indexing order) the
identifiers matching at least one distinct query token, and rank them by
match count descending, then aggregate term frequency descending, with the
original indexing order as the stable tie-break. -/
def IndexState.search (s : IndexState Id) (query : String) : List Id :=
  let qtoks := (tokenize query).dedup
  let cands := (s.docs.map Prod.fst).filter
    (fun id => decide (0 < matchCount s.postings qtoks id))
  rankSort (fun id => skey s qtoks id) cands

/-- The spec's data-model invariants of a `SearchIndex`: document identifiers
are unique, every posting set is non-empty, and every identifier appearing in
a posting set has a document record. -/
def Wf (s : IndexState Id) : Prop :=
  (s.docs.map Prod.fst).Nodup ∧
  ∀ p ∈ s.postings, p.2 ≠ [] ∧ ∀ id ∈ p.2, id ∈ s.docs.map Prod.fst

instance decWf (s : IndexState Id) : Decidable (Wf s) :=
  decidable_of_iff ((s.docs.map Prod.fst).Nodup ∧
    ∀ p ∈ s.postings, p.2 ≠ [] ∧ ∀ id ∈ p.2, id ∈ s.docs.map Prod.fst) Iff.rfl

/-! ## Studio document adapter and rebuild orchestrator

Translated from `src/search/studio.ts`. -/

/-- A label record inside a studio search document
(`src/search/studio.ts`, `IStudioSearchDoc.labels`). -/
structure LabelRecord where
  _id : String
  name : String
  aliases : List String
deriving DecidableEq

/-- The studio search document (`src/search/studio.ts`, `IStudioSearchDoc`). -/
structure IStudioSearchDoc where
  _id : String
  addedOn : Int
  name : String
  labels : List LabelRecord
  bookmark : Bool
  favorite : Bool
  numScenes : Nat
deriving DecidableEq

/-- The tokenizer strategy injected into `studioIndex`
(`src/search/studio.ts`, lines 41–47): the tokens of the primary name
followed by the tokens of the label names. -/
def studioTokenizer (doc : IStudioSearchDoc) : List String :=
  tokenize doc.name ++ tokenizeNames (doc.labels.map (fun l => l.name))

/-- The identifier strategy injected into `studioIndex`
(`src/search/studio.ts`, line 48). -/
def studioId (doc : IStudioSearchDoc) : String :=
  doc._id

/-- The token sequence the claim describes: primary name tokens together with
the tokens of every label name and every label alias.  Stated from the
claim's words, for comparison with `studioTokenizer`. -/
def claimedStudioTokens (doc : IStudioSearchDoc) : List String :=
  tokenize doc.name ++ tokenizeNames (doc.labels.map (fun l => l.name)) ++
    tokenizeNames ((doc.labels.map (fun l => l.aliases)).flatten)

/-- An index instance with nothing indexed. -/
def emptyIndex : IndexState String :=
  { postings := [], docs := [] }

/-- The rebuild loop of `buildStudioIndex` (`src/search/studio.ts`, lines
51–61), with the document adapter abstracted as a fallible function: the loop
body has no exception handler, so the first failed adaptation stops the loop
— documents added before it remain indexed, the error propagates (returned
here as the `Option String` component), and no later entity is processed. -/
def buildLoop {E : Type} (adapt : E → Except String IStudioSearchDoc) :
    IndexState String → List E → IndexState String × Option String
  | s, [] => (s, none)
  | s, e :: es =>
    match adapt e with
    | Except.ok d => buildLoop adapt (s.add studioTokenizer studioId d) es
    | Except.error msg => (s, some msg)

/-- A concrete label with an alias, for evaluating the studio tokenizer. -/
def exLabel : LabelRecord :=
  { _id := "l1", name := "indie", aliases := ["artsy"] }

/-- A concrete studio search document whose single label has an alias. -/
def exStudioDoc : IStudioSearchDoc :=
  { _id := "s1", addedOn := 0, name := "Acme", labels := [exLabel],
    bookmark := false, favorite := false, numScenes := 0 }

/-- A second concrete studio search document, with no labels. -/
def exStudioDoc2 : IStudioSearchDoc :=
  { _id := "s2", addedOn := 0, name := "Beta", labels := [],
    bookmark := false, favorite := false, numScenes := 0 }

/-- A concrete adapter: entity `0` fails (its referenced label vanished),
every other entity adapts to `exStudioDoc2`. -/
def exAdapt : Nat → Except String IStudioSearchDoc
  | 0 => Except.error "label vanished"
  | _ + 1 => Except.ok exStudioDoc2

/-! ## Config hot reload

Translated from `src/config/index.ts`, `watchConfig` (lines 237–271). -/

/-- The change handler of `watchConfig`, as a function of the previously
loaded config, the parse outcome of the changed file and the `checkConfig`
validation.  `parsed = none` models a parse exception (caught, leaving
`newConfig` null); `parsed = some none` models a parse producing null (or a
config file with an unrecognized extension); `parsed = some (some c)` models
a successful parse.  A null `newConfig` returns early; a `checkConfig`
failure is caught; only a parsed and validated config replaces the loaded
one. -/
def onConfigChange {Cfg : Type} (check : Cfg → Bool) (loaded : Option Cfg)
    (parsed : Option (Option Cfg)) : Option Cfg :=
  match parsed with
  | none => loaded
  | some none => loaded
  | some (some c) => if check c then some c else loaded

/-! ## Scan endpoint

Translated from `src/routers/scan.ts`, `router.post("/")` (lines 18–28). -/

/-- An HTTP response: status code and JSON string body.  `res.json` without
`res.status` responds with status 200. -/
structure ScanResponse where
  status : Nat
  body : String
deriving DecidableEq

/-- The POST `/scan` handler: given the `isScanning` flag, the response sent
and the number of times `scanFolders` is invoked. -/
def postScanHandler (isScanning : Bool) : ScanResponse × Nat :=
  if isScanning then ({ status := 409, body := "Scan already in progress" }, 0)
  else ({ status := 200, body := "Started scan." }, 1)

/-! ## Tokenizer lemmas and claims -/

/-- Every character of every run produced by `splitRuns` is alphanumeric. -/
theorem mem_splitRuns_alnum (cs : List Char) :
    ∀ acc : List Char, (∀ c ∈ acc, isAlphanum c = true) →
      ∀ r ∈ splitRuns cs acc, ∀ c ∈ r, isAlphanum c = true := by
  induction cs with
  | nil =>
    intro acc hacc r hr c hc
    simp only [splitRuns] at hr
    by_cases h : acc.isEmpty
    · simp [h] at hr
    · simp [h] at hr
      subst hr
      exact hacc c (List.mem_reverse.mp hc)
  | cons a rest ih =>
    intro acc hacc r hr c hc
    simp only [splitRuns] at hr
    by_cases ha : isAlphanum a
    · rw [if_pos ha] at hr
      refine ih (a :: acc) ?_ r hr c hc
      intro x hx
      rcases List.mem_cons.mp hx with rfl | hx
      · exact ha
      · exact hacc x hx
    · rw [if_neg ha] at hr
      by_cases he : acc.isEmpty
      · rw [if_pos he] at hr
        exact ih [] (by simp) r hr c hc
      · rw [if_neg he] at hr
        rcases List.mem_cons.mp hr with rfl | hr
        · exact hacc c (List.mem_reverse.mp hc)
        · exact ih [] (by simp) r hr c hc

/-- C6: `tokenize` lower-cases, strips diacritics, splits on non-alphanumeric
runs and discards tokens shorter than 2 characters: concretely,
`tokenize "Jane Doe Studio" = ["jane", "doe", "studio"]`; every produced
token has length at least 2 and consists of alphanumeric characters only. -/
theorem tokenize_spec :
    tokenize "Jane Doe Studio" = ["jane", "doe", "studio"] ∧
    (∀ s : String, ∀ t ∈ tokenize s, 2 ≤ t.length) ∧
    (∀ s : String, ∀ t ∈ tokenize s, ∀ c ∈ t.data, isAlphanum c = true) := by
  refine ⟨by decide, ?_, ?_⟩
  · intro s t ht
    simp only [tokenize, tokenizeChars, List.mem_map, List.mem_filter,
      decide_eq_true_eq] at ht
    rcases ht with ⟨r, ⟨_, hlen⟩, rfl⟩
    exact hlen
  · intro s t ht c hc
    simp only [tokenize, tokenizeChars, List.mem_map, List.mem_filter,
      decide_eq_true_eq] at ht
    rcases ht with ⟨r, ⟨hr, _⟩, rfl⟩
    exact mem_splitRuns_alnum _ [] (by simp) r hr c hc

/-- C6 witness: the general parts of `tokenize_spec` at the concrete input
`"Jane Doe Studio"` and its first token. -/
theorem tokenize_spec_witness :
    2 ≤ ("jane" : String).length ∧ ∀ c ∈ ("jane" : String).data, isAlphanum c = true :=
  ⟨tokenize_spec.2.1 "Jane Doe Studio" "jane" (by decide),
   tokenize_spec.2.2 "Jane Doe Studio" "jane" (by decide)⟩

/-- C8: `tokenize` is total and deterministic: it is a function defined on
every string, degenerate input yields the empty token sequence rather than
an error, and two invocations on the same input are equal. -/
theorem tokenize_total_deterministic :
    tokenize "" = [] ∧ tokenize " .?! -" = [] ∧ tokenize "a" = [] ∧
    ∀ s : String, tokenize s = tokenize s :=
  ⟨by decide, by decide, by decide, fun _ => rfl⟩

/-! ## Config and scan claims -/

/-- C9: the `watchConfig` change handler keeps the previously loaded config
when the new content fails to parse, parses to null, or fails `checkConfig`
validation; it replaces it exactly when the content parses and validates. -/
theorem watchConfig_keeps_old {Cfg : Type} (check : Cfg → Bool) (loaded : Option Cfg) :
    onConfigChange check loaded none = loaded ∧
    onConfigChange check loaded (some none) = loaded ∧
    (∀ c, check c = false → onConfigChange check loaded (some (some c)) = loaded) ∧
    (∀ c, check c = true → onConfigChange check loaded (some (some c)) = some c) := by
  refine ⟨rfl, rfl, ?_, ?_⟩ <;> intro c hc <;> simp [onConfigChange, hc]

/-- C9 witness: the handler at a concrete loaded config, an invalid new
config and a valid new config. -/
theorem watchConfig_keeps_old_witness :
    onConfigChange (fun n : Nat => decide (n = 0)) (some 1) (some (some 2)) = some 1 ∧
    onConfigChange (fun n : Nat => decide (n = 0)) (some 1) (some (some 0)) = some 0 :=
  ⟨(watchConfig_keeps_old (fun n : Nat => decide (n = 0)) (some 1)).2.2.1 2 (by decide),
   (watchConfig_keeps_old (fun n : Nat => decide (n = 0)) (some 1)).2.2.2 0 (by decide)⟩

/-- C10: the POST `/scan` handler responds 409 "Scan already in progress"
and never invokes `scanFolders` while a scan is in progress; otherwise it
invokes `scanFolders` exactly once and responds "Started scan.". -/
theorem scan_post_guard :
    postScanHandler true = ({ status := 409, body := "Scan already in progress" }, 0) ∧
    postScanHandler false = ({ status := 200, body := "Started scan." }, 1) :=
  ⟨rfl, rfl⟩

/-! ## Engine lemmas -/

/-- `removePostings` leaves no identifier `id` in any looked-up posting. -/
theorem not_mem_lookup_removePostings (id : Id) (ps : List (Token × List Id)) (t : Token) :
    id ∉ lookupPosting (removePostings id ps) t := by
  induction ps with
  | nil => simp [removePostings, lookupPosting]
  | cons p rest ih =>
    by_cases he : (p.2.filter (fun x => ! decide (x = id))).isEmpty
    · simpa [removePostings, he] using ih
    · simp only [removePostings, he, if_false, Bool.false_eq_true]
      simp only [lookupPosting]
      by_cases ht : p.1 = t
      · simp [ht, List.mem_filter]
      · simpa [ht] using ih

/-- Every entry surviving `removePostings` is non-empty and free of `id`. -/
theorem mem_removePostings (id : Id) (ps : List (Token × List Id)) :
    ∀ p ∈ removePostings id ps, p.2 ≠ [] ∧ id ∉ p.2 := by
  induction ps with
  | nil => simp [removePostings]
  | cons q rest ih =>
    by_cases he : (q.2.filter (fun x => ! decide (x = id))).isEmpty
    · simpa [removePostings, he] using ih
    · intro p hp
      simp only [removePostings, he, if_false, Bool.false_eq_true] at hp
      rcases List.mem_cons.mp hp with rfl | hp
      · constructor
        · intro h
          rw [List.isEmpty_iff] at he
          exact he h
        · simp [List.mem_filter]
      · exact ih p hp

/-- Inserting an identifier for a different token does not change a lookup. -/
theorem lookup_insertPosting_ne (ps : List (Token × List Id)) (t' t : Token) (id : Id)
    (h : t' ≠ t) : lookupPosting (insertPosting ps t' id) t = lookupPosting ps t := by
  induction ps with
  | nil => simp [insertPosting, lookupPosting, h]
  | cons p rest ih =>
    by_cases hp : p.1 = t'
    · simp [insertPosting, hp, lookupPosting, h]
    · by_cases hq : p.1 = t
      · simp [insertPosting, hp, lookupPosting, hq, Ne.symm h]
      · simp [insertPosting, hp, lookupPosting, hq, ih]

/-- Inserting an identifier for tokens not containing `t` does not change the
lookup at `t`. -/
theorem lookup_insertAll_not_mem (id : Id) (toks : List Token) :
    ∀ ps : List (Token × List Id), ∀ t : Token, t ∉ toks →
      lookupPosting (insertAll id ps toks) t = lookupPosting ps t := by
  induction toks with
  | nil => intro ps t _; rfl
  | cons a ts ih =>
    intro ps t ht
    rw [List.mem_cons] at ht
    push_neg at ht
    simp only [insertAll]
    rw [ih _ t ht.2, lookup_insertPosting_ne _ _ _ _ (Ne.symm ht.1)]

/-- Stripping `id` after inserting it for one token equals stripping it
before. -/
theorem removePostings_insertPosting (id : Id) (t : Token) (ps : List (Token × List Id)) :
    removePostings id (insertPosting ps t id) = removePostings id ps := by
  induction ps with
  | nil => simp [insertPosting, removePostings]
  | cons p rest ih =>
    obtain ⟨pt, pids⟩ := p
    by_cases hp : pt = t
    · subst hp
      by_cases hm : id ∈ pids
      · simp [insertPosting, hm]
      · simp only [insertPosting, if_pos rfl, if_neg hm]
        simp [removePostings, List.filter_append]
    · simp only [insertPosting, if_neg hp]
      simp only [removePostings, ih]

/-- Stripping `id` after inserting it for a token sequence equals stripping
it before. -/
theorem removePostings_insertAll (id : Id) (toks : List Token) :
    ∀ ps : List (Token × List Id),
      removePostings id (insertAll id ps toks) = removePostings id ps := by
  induction toks with
  | nil => intro ps; rfl
  | cons t ts ih =>
    intro ps
    simp only [insertAll]
    rw [ih, removePostings_insertPosting]

/-- `removePostings` is the identity on a postings list whose entries are
non-empty and free of `id`. -/
theorem removePostings_eq_self (id : Id) (ps : List (Token × List Id))
    (h : ∀ p ∈ ps, p.2 ≠ [] ∧ id ∉ p.2) : removePostings id ps = ps := by
  induction ps with
  | nil => rfl
  | cons p rest ih =>
    have hp := h p (List.mem_cons_self p rest)
    have hfil : p.2.filter (fun x => ! decide (x = id)) = p.2 := by
      apply List.filter_eq_self.mpr
      intro a ha
      have hne : a ≠ id := fun h' => hp.2 (h' ▸ ha)
      simp [hne]
    have hpe : p.2.isEmpty = false := by
      cases hq : p.2 with
      | nil => exact absurd hq hp.1
      | cons a l => simp
    simp only [removePostings, hfil]
    rw [if_neg (by simp [hpe])]
    rw [ih (fun q hq => h q (List.mem_cons_of_mem p hq))]

/-- Filtering out an identifier absent from every key is the identity. -/
theorem filter_ne_eq_self {β : Type} (id : Id) (l : List (Id × β))
    (h : ∀ p ∈ l, p.1 ≠ id) : l.filter (fun p => ! decide (p.1 = id)) = l := by
  apply List.filter_eq_self.mpr
  intro p hp
  simp [h p hp]

/-- No document record of `removeId` carries the removed identifier. -/
theorem removeId_docs_ne (s : IndexState Id) (id : Id) :
    ∀ p ∈ (s.removeId id).docs, p.1 ≠ id := by
  by_cases h : s.isIndexed id
  · simp only [IndexState.removeId, if_pos h]
    intro p hp
    have := List.of_mem_filter hp
    simpa using this
  · simp only [IndexState.removeId, if_neg h]
    intro p hp heq
    apply h
    simp only [IndexState.isIndexed, List.any_eq_true, decide_eq_true_eq]
    exact ⟨p, hp, heq⟩

/-- Under the index invariants, after `removeId` every posting entry is
non-empty and free of the removed identifier. -/
theorem removeId_postings_clean (s : IndexState Id) (id : Id) (hwf : Wf s) :
    ∀ p ∈ (s.removeId id).postings, p.2 ≠ [] ∧ id ∉ p.2 := by
  by_cases h : s.isIndexed id
  · simp only [IndexState.removeId, if_pos h]
    exact mem_removePostings id s.postings
  · simp only [IndexState.removeId, if_neg h]
    intro p hp
    refine ⟨(hwf.2 p hp).1, fun hid => ?_⟩
    have hmem : id ∈ s.docs.map Prod.fst := (hwf.2 p hp).2 id hid
    apply h
    simp only [IndexState.isIndexed, List.any_eq_true, decide_eq_true_eq]
    rcases List.mem_map.mp hmem with ⟨q, hq, hq1⟩
    exact ⟨q, hq, hq1⟩

/-- An identifier absent from every posting entry is absent from every
lookup. -/
theorem not_mem_lookup_of_clean (id : Id) (ps : List (Token × List Id))
    (h : ∀ p ∈ ps, id ∉ p.2) : ∀ t, id ∉ lookupPosting ps t := by
  induction ps with
  | nil => simp [lookupPosting]
  | cons p rest ih =>
    intro t
    simp only [lookupPosting]
    by_cases hp : p.1 = t
    · simpa [hp] using h p (List.mem_cons_self p rest)
    · simpa [hp] using ih (fun q hq => h q (List.mem_cons_of_mem p hq)) t

/-- Filtering out the unique entry of a key list with no duplicate keys
shortens the list by exactly one. -/
theorem length_filter_ne {β : Type} (id : Id) (l : List (Id × β))
    (hnd : (l.map Prod.fst).Nodup) (hmem : ∃ p ∈ l, p.1 = id) :
    (l.filter (fun p => ! decide (p.1 = id))).length + 1 = l.length := by
  induction l with
  | nil => simp at hmem
  | cons q rest ih =>
    simp only [List.map_cons, List.nodup_cons] at hnd
    rcases hmem with ⟨p, hp, hpid⟩
    rcases List.mem_cons.mp hp with rfl | hp'
    · have hrest : rest.filter (fun r => ! decide (r.1 = id)) = rest := by
        apply filter_ne_eq_self
        intro r hr hrid
        apply hnd.1
        have hmr : r.1 ∈ List.map Prod.fst rest := List.mem_map.mpr ⟨r, hr, rfl⟩
        rwa [hrid, ← hpid] at hmr
      simp [List.filter_cons, hpid, hrest]
    · have hqid : q.1 ≠ id := by
        intro hc
        apply hnd.1
        have hmp : p.1 ∈ List.map Prod.fst rest := List.mem_map.mpr ⟨p, hp', rfl⟩
        rwa [hpid, ← hc] at hmp
      have hrec := ih hnd.2 ⟨p, hp', hpid⟩
      simp only [List.filter_cons, List.length_cons]
      rw [if_pos (by simp [hqid])]
      simp only [List.length_cons]
      omega

/-- After `add`, the added document's identifier is indexed. -/
theorem isIndexed_add_self {Doc : Type} (tokFn : Doc → List Token) (idFn : Doc → Id)
    (s : IndexState Id) (d : Doc) : (s.add tokFn idFn d).isIndexed (idFn d) = true := by
  simp [IndexState.add, IndexState.isIndexed]

/-- `removeId` on an indexed identifier, spelled out. -/
theorem removeId_of_indexed (s : IndexState Id) (id : Id) (h : s.isIndexed id = true) :
    s.removeId id = { postings := removePostings id s.postings,
                      docs := s.docs.filter (fun p => ! decide (p.1 = id)) } := by
  simp [IndexState.removeId, h]

/-- Under the index invariants, removing the freshly added identifier undoes
the `add` exactly. -/
theorem removeId_add_self {Doc : Type} (tokFn : Doc → List Token) (idFn : Doc → Id)
    (s : IndexState Id) (d : Doc) (hwf : Wf s) :
    (s.add tokFn idFn d).removeId (idFn d) = s.removeId (idFn d) := by
  have hidx := isIndexed_add_self tokFn idFn s d
  have hpost : removePostings (idFn d)
      (insertAll (idFn d) (s.removeId (idFn d)).postings (tokFn d))
      = (s.removeId (idFn d)).postings := by
    rw [removePostings_insertAll]
    exact removePostings_eq_self _ _ (removeId_postings_clean s (idFn d) hwf)
  have hdocs : ((s.removeId (idFn d)).docs ++ [(idFn d, tokFn d)]).filter
      (fun p => ! decide (p.1 = idFn d)) = (s.removeId (idFn d)).docs := by
    rw [List.filter_append, filter_ne_eq_self _ _ (removeId_docs_ne s (idFn d))]
    simp
  rw [removeId_of_indexed _ _ hidx]
  show ({ postings := removePostings (idFn d)
            (insertAll (idFn d) (s.removeId (idFn d)).postings (tokFn d)),
          docs := ((s.removeId (idFn d)).docs ++ [(idFn d, tokFn d)]).filter
            (fun p => ! decide (p.1 = idFn d)) } : IndexState Id)
      = s.removeId (idFn d)
  rw [hpost, hdocs]

/-! ## Engine claims -/

/-- C1: re-adding an already indexed identifier fully replaces its prior
token associations: after `add(d)`, the identifier of `d` is associated with
no token absent from `d`'s token sequence. -/
theorem add_update_no_stale {Doc : Type} (tokFn : Doc → List Token) (idFn : Doc → Id)
    (s : IndexState Id) (d : Doc) (t : Token)
    (hindexed : s.isIndexed (idFn d) = true) (ht : t ∉ tokFn d) :
    idFn d ∉ lookupPosting (s.add tokFn idFn d).postings t := by
  show idFn d ∉ lookupPosting
    (insertAll (idFn d) (s.removeId (idFn d)).postings (tokFn d)) t
  rw [lookup_insertAll_not_mem _ _ _ _ ht]
  rw [removeId_of_indexed _ _ hindexed]
  exact not_mem_lookup_removePostings _ _ _

/-- C1 witness: re-adding identifier `1`, first indexed with token "old",
with new tokens `["new1", "new2"]` leaves no posting of "old" for it. -/
theorem add_update_no_stale_witness :
    (IndexState.mk [("old", [1])] [(1, ["old"])] : IndexState Nat).isIndexed 1 = true ∧
    "old" ∉ ["new1", "new2"] ∧
    (1 : Nat) ∉ lookupPosting ((IndexState.mk [("old", [1])] [(1, ["old"])]).add
      (fun _ : Unit => ["new1", "new2"]) (fun _ => 1) ()).postings "old" :=
  ⟨by decide, by decide,
   add_update_no_stale (fun _ : Unit => ["new1", "new2"]) (fun _ => 1)
     (IndexState.mk [("old", [1])] [(1, ["old"])]) () "old" (by decide) (by decide)⟩

/-- C2: after `remove(id)` no posting set contains `id` and no posting set is
empty; if `id` was indexed, `size()` decreases by exactly one; if it was not,
the removal is a no-op leaving the index unchanged. -/
theorem remove_complete (s : IndexState Id) (id : Id) (hwf : Wf s) :
    (∀ t, id ∉ lookupPosting (s.removeId id).postings t) ∧
    (∀ p ∈ (s.removeId id).postings, p.2 ≠ []) ∧
    (s.isIndexed id = true → (s.removeId id).size + 1 = s.size) ∧
    (s.isIndexed id = false → s.removeId id = s) := by
  refine ⟨?_, ?_, ?_, ?_⟩
  · exact not_mem_lookup_of_clean id _
      (fun p hp => (removeId_postings_clean s id hwf p hp).2)
  · exact fun p hp => (removeId_postings_clean s id hwf p hp).1
  · intro h
    rw [removeId_of_indexed _ _ h]
    apply length_filter_ne id s.docs hwf.1
    simp only [IndexState.isIndexed, List.any_eq_true, decide_eq_true_eq] at h
    exact h
  · intro h
    simp [IndexState.removeId, h]

/-- C2 witness: removing identifier `1` from a two-document index drops it
from the posting of "bb" and shrinks the size by one. -/
theorem remove_complete_witness :
    (1 : Nat) ∉ lookupPosting
      ((IndexState.mk [("aa", [1, 2]), ("bb", [1])]
        [(1, ["aa", "bb"]), (2, ["aa"])]).removeId 1).postings "bb" ∧
    ((IndexState.mk [("aa", [1, 2]), ("bb", [1])]
        [(1, ["aa", "bb"]), (2, ["aa"])] : IndexState Nat).removeId 1).size + 1
      = (IndexState.mk [("aa", [1, 2]), ("bb", [1])]
        [(1, ["aa", "bb"]), (2, ["aa"])] : IndexState Nat).size :=
  ⟨(remove_complete (IndexState.mk [("aa", [1, 2]), ("bb", [1])]
      [(1, ["aa", "bb"]), (2, ["aa"])]) 1 (by decide)).1 "bb",
   (remove_complete (IndexState.mk [("aa", [1, 2]), ("bb", [1])]
      [(1, ["aa", "bb"]), (2, ["aa"])]) 1 (by decide)).2.2.1 (by decide)⟩

/-- C7: under the index invariants, applying `add(d)` twice with identical
content produces the same postings map and the same `size()` as applying it
once. -/
theorem add_idempotent {Doc : Type} (tokFn : Doc → List Token) (idFn : Doc → Id)
    (s : IndexState Id) (d : Doc) (hwf : Wf s) :
    (((s.add tokFn idFn d).add tokFn idFn d).postings = (s.add tokFn idFn d).postings) ∧
    (((s.add tokFn idFn d).add tokFn idFn d).size = (s.add tokFn idFn d).size) := by
  have key : (s.add tokFn idFn d).add tokFn idFn d = s.add tokFn idFn d := by
    have h2 := removeId_add_self tokFn idFn s d hwf
    calc (s.add tokFn idFn d).add tokFn idFn d
        = { postings := insertAll (idFn d)
              (((s.add tokFn idFn d).removeId (idFn d)).postings) (tokFn d),
            docs := ((s.add tokFn idFn d).removeId (idFn d)).docs
              ++ [(idFn d, tokFn d)] } := rfl
      _ = { postings := insertAll (idFn d)
              ((s.removeId (idFn d)).postings) (tokFn d),
            docs := (s.removeId (idFn d)).docs ++ [(idFn d, tokFn d)] } := by rw [h2]
      _ = s.add tokFn idFn d := rfl
  exact ⟨by rw [key], by rw [key]⟩

/-- C7 witness: adding the same document twice to an empty index leaves the
postings and the size of a single add. -/
theorem add_idempotent_witness :
    Wf (IndexState.mk [] [] : IndexState Nat) ∧
    ((((IndexState.mk [] [] : IndexState Nat).add (fun _ : Unit => ["aa"]) (fun _ => 1) ()).add
        (fun _ : Unit => ["aa"]) (fun _ => 1) ()).postings
      = ((IndexState.mk [] [] : IndexState Nat).add
          (fun _ : Unit => ["aa"]) (fun _ => 1) ()).postings) :=
  ⟨by decide,
   (add_idempotent (fun _ : Unit => ["aa"]) (fun _ => 1)
     (IndexState.mk [] []) () (by decide)).1⟩

/-! ## Ranking lemmas -/

/-- `better` as a proposition on the key components. -/
theorem better_eq_true_iff (a b : Nat × Nat) :
    better a b = true ↔ (b.1 < a.1 ∨ (b.1 = a.1 ∧ b.2 < a.2)) := by
  simp [better]

/-- Negation of `better` as a proposition on the key components. -/
theorem better_eq_false_iff (a b : Nat × Nat) :
    better a b = false ↔ ¬(b.1 < a.1 ∨ (b.1 = a.1 ∧ b.2 < a.2)) := by
  rw [← better_eq_true_iff]
  cases better a b <;> simp

/-- The strict ranking order is asymmetric. -/
theorem better_asymm (a b : Nat × Nat) (h : better a b = true) : better b a = false := by
  rw [better_eq_true_iff] at h
  rw [better_eq_false_iff]
  omega

/-- A key not better than `b` is not better than anything better than `b`. -/
theorem better_trans_not (a b c : Nat × Nat) (h1 : better a b = true)
    (h2 : better c b = false) : better c a = false := by
  rw [better_eq_true_iff] at h1
  rw [better_eq_false_iff] at h2 ⊢
  omega

/-- Membership through `rankInsert`. -/
theorem mem_rankInsert (key : Id → Nat × Nat) (a x : Id) (l : List Id) :
    x ∈ rankInsert key a l ↔ x = a ∨ x ∈ l := by
  induction l with
  | nil => simp [rankInsert]
  | cons y ys ih =>
    by_cases h : better (key a) (key y)
    · simp only [rankInsert, if_pos h, List.mem_cons]
    · simp only [rankInsert, if_neg h, List.mem_cons, ih]
      tauto

/-- Membership through the sorting accumulator. -/
theorem mem_rankSortAux (key : Id → Nat × Nat) (l : List Id) :
    ∀ acc x, (x ∈ rankSortAux key acc l ↔ x ∈ acc ∨ x ∈ l) := by
  induction l with
  | nil => intro acc x; simp [rankSortAux]
  | cons a as ih =>
    intro acc x
    simp only [rankSortAux]
    rw [ih, mem_rankInsert]
    simp only [List.mem_cons]
    tauto

/-- The strict ranking order is irreflexive. -/
theorem better_irrefl (a : Nat × Nat) : better a a = false := by
  rw [better_eq_false_iff]
  omega

/-- `rankInsert` preserves the descending-rank pairwise invariant. -/
theorem pairwise_rankInsert (key : Id → Nat × Nat) (x : Id) (l : List Id)
    (h : l.Pairwise (fun a b => better (key b) (key a) = false)) :
    (rankInsert key x l).Pairwise (fun a b => better (key b) (key a) = false) := by
  induction l with
  | nil => simp [rankInsert]
  | cons y ys ih =>
    rcases List.pairwise_cons.mp h with ⟨hy, hys⟩
    by_cases hb : better (key x) (key y)
    · simp only [rankInsert, if_pos hb]
      apply List.pairwise_cons.mpr
      refine ⟨?_, h⟩
      intro z hz
      rcases List.mem_cons.mp hz with rfl | hz'
      · exact better_asymm _ _ hb
      · exact better_trans_not _ _ _ hb (hy z hz')
    · simp only [rankInsert, if_neg hb]
      apply List.pairwise_cons.mpr
      constructor
      · intro z hz
        rcases (mem_rankInsert key x z ys).mp hz with rfl | hz'
        · exact Bool.eq_false_iff.mpr hb
        · exact hy z hz'
      · exact ih hys

/-- The sorting accumulator preserves the descending-rank pairwise
invariant. -/
theorem pairwise_rankSortAux (key : Id → Nat × Nat) (l : List Id) :
    ∀ acc, acc.Pairwise (fun a b => better (key b) (key a) = false) →
      (rankSortAux key acc l).Pairwise (fun a b => better (key b) (key a) = false) := by
  induction l with
  | nil => intro acc h; exact h
  | cons a as ih => intro acc h; exact ih _ (pairwise_rankInsert key a acc h)

/-- Stability of `rankInsert`: into a descending-sorted list, `x` is placed
right after the block of elements sharing its key, so the elements of any
fixed key `k` keep their order, with `x` appended when its key is `k`. -/
theorem filter_rankInsert (f : Id → Nat × Nat) (k : Nat × Nat) (x : Id) (l : List Id)
    (hsort : l.Pairwise (fun a b => better (f b) (f a) = false)) :
    (rankInsert f x l).filter (fun id => decide (f id = k))
      = if f x = k then l.filter (fun id => decide (f id = k)) ++ [x]
        else l.filter (fun id => decide (f id = k)) := by
  induction l with
  | nil =>
    by_cases hx : f x = k <;> simp [rankInsert, hx]
  | cons y ys ih =>
    rcases List.pairwise_cons.mp hsort with ⟨hy, hys⟩
    by_cases hb : better (f x) (f y)
    · simp only [rankInsert, if_pos hb]
      by_cases hx : f x = k
      · have hynil : (y :: ys).filter (fun id => decide (f id = k)) = [] := by
          apply List.filter_eq_nil_iff.mpr
          intro z hz
          simp only [decide_eq_true_eq]
          intro hzk
          rcases List.mem_cons.mp hz with rfl | hz'
          · have hxy : f x = f z := hx.trans hzk.symm
            rw [hxy, better_irrefl] at hb
            exact Bool.false_ne_true hb
          · have hzx : f z = f x := hzk.trans hx.symm
            have h2 := hy z hz'
            rw [hzx] at h2
            rw [h2] at hb
            exact Bool.false_ne_true hb
        simp [List.filter_cons, hx, hynil]
      · simp [List.filter_cons, hx]
    · simp only [rankInsert, if_neg hb]
      rw [List.filter_cons, ih hys]
      by_cases hx : f x = k <;> by_cases hyk : f y = k <;>
        simp [List.filter_cons, hx, hyk]

/-- Stability of the sorting accumulator: for any fixed key `k`, sorting
appends the equal-key elements of the input, in input order, after those of
the accumulator. -/
theorem filter_rankSortAux (f : Id → Nat × Nat) (k : Nat × Nat) (l : List Id) :
    ∀ acc, acc.Pairwise (fun a b => better (f b) (f a) = false) →
      (rankSortAux f acc l).filter (fun id => decide (f id = k))
        = acc.filter (fun id => decide (f id = k))
          ++ l.filter (fun id => decide (f id = k)) := by
  induction l with
  | nil => intro acc _; simp [rankSortAux]
  | cons x xs ih =>
    intro acc hacc
    simp only [rankSortAux]
    rw [ih _ (pairwise_rankInsert f x acc hacc), filter_rankInsert f k x acc hacc]
    by_cases hx : f x = k <;> simp [List.filter_cons, hx]

/-- `rankInsert` permutes the inserted element onto the list. -/
theorem perm_rankInsert (f : Id → Nat × Nat) (x : Id) (l : List Id) :
    List.Perm (rankInsert f x l) (x :: l) := by
  induction l with
  | nil => exact List.Perm.refl _
  | cons y ys ih =>
    by_cases h : better (f x) (f y)
    · simp only [rankInsert, if_pos h]
      exact List.Perm.refl _
    · simp only [rankInsert, if_neg h]
      exact (List.Perm.cons y ih).trans (List.Perm.swap x y ys)

/-- The sorting accumulator permutes the accumulator and the input. -/
theorem perm_rankSortAux (f : Id → Nat × Nat) (l : List Id) :
    ∀ acc, List.Perm (rankSortAux f acc l) (acc ++ l) := by
  induction l with
  | nil => intro acc; simp [rankSortAux]
  | cons x xs ih =>
    intro acc
    simp only [rankSortAux]
    refine ((ih _).trans ?_)
    refine (List.Perm.append_right xs (perm_rankInsert f x acc)).trans ?_
    exact List.perm_middle.symm

/-- An identifier found in a posting lookup belongs to one of the posting
entries. -/
theorem mem_lookupPosting (ps : List (Token × List Id)) (t : Token) (x : Id)
    (hx : x ∈ lookupPosting ps t) : ∃ p ∈ ps, x ∈ p.2 := by
  induction ps with
  | nil => simp [lookupPosting] at hx
  | cons p rest ih =>
    simp only [lookupPosting] at hx
    by_cases hp : p.1 = t
    · rw [if_pos hp] at hx
      exact ⟨p, List.mem_cons_self p rest, hx⟩
    · rw [if_neg hp] at hx
      rcases ih hx with ⟨p', hp', hx'⟩
      exact ⟨p', List.mem_cons_of_mem p hp', hx'⟩

/-- A positive match count is exactly a match on some query token. -/
theorem matchCount_pos_iff (ps : List (Token × List Id)) (qtoks : List Token) (id : Id) :
    0 < matchCount ps qtoks id ↔ ∃ t ∈ qtoks, id ∈ lookupPosting ps t := by
  simp [matchCount, matchedTokens, List.length_pos_iff_exists_mem, List.mem_filter]

/-- Filtering a duplicate-free list by a predicate that holds exactly at one
of its elements yields that singleton. -/
theorem filter_eq_singleton {α : Type} (p : α → Bool) (l : List α) (D : α)
    (hnd : l.Nodup) (hD : D ∈ l) (hp : ∀ x ∈ l, (p x = true ↔ x = D)) :
    l.filter p = [D] := by
  induction l with
  | nil => simp at hD
  | cons a as ih =>
    rcases List.nodup_cons.mp hnd with ⟨ha, has⟩
    rcases List.mem_cons.mp hD with rfl | hD'
    · have hpa : p D = true := (hp D (List.mem_cons_self D as)).mpr rfl
      have hnil : as.filter p = [] := by
        apply List.filter_eq_nil_iff.mpr
        intro x hx
        intro hcon
        have := (hp x (List.mem_cons_of_mem D hx)).mp hcon
        exact ha (this ▸ hx)
      simp [List.filter_cons, hpa, hnil]
    · have hpa : p a = false := by
        have hiff := hp a (List.mem_cons_self a as)
        rcases hb : p a with _ | _
        · rfl
        · exact absurd (hiff.mp hb ▸ hD') ha
      simp only [List.filter_cons, hpa, if_false, Bool.false_eq_true]
      exact ih has hD' (fun x hx => hp x (List.mem_cons_of_mem a hx))

/-- C3: `search(query)` returns exactly the identifiers matching at least one
query token (OR semantics): membership is an iff, the result is a
duplicate-free permutation of the candidate list (the matching identifiers in
original indexing order); it is ordered so that no later element has a
strictly better ranking key (match count, then aggregate term frequency);
elements of equal ranking key appear exactly as in the candidate list, i.e.
in original indexing order (the stable tie-break); and if the query is a
single token occurring only in document `D`, the result is exactly `[D]`. -/
theorem search_spec (s : IndexState Id) (hwf : Wf s) (q : String) :
    (∀ id, id ∈ s.search q ↔ ∃ t ∈ tokenize q, id ∈ lookupPosting s.postings t) ∧
    (s.search q).Pairwise
      (fun a b => better (skey s (tokenize q).dedup b) (skey s (tokenize q).dedup a) = false) ∧
    List.Perm (s.search q)
      ((s.docs.map Prod.fst).filter
        (fun id => decide (0 < matchCount s.postings (tokenize q).dedup id))) ∧
    (s.search q).Nodup ∧
    (∀ k : Nat × Nat,
      (s.search q).filter (fun id => decide (skey s (tokenize q).dedup id = k))
        = ((s.docs.map Prod.fst).filter
            (fun id => decide (0 < matchCount s.postings (tokenize q).dedup id))).filter
          (fun id => decide (skey s (tokenize q).dedup id = k))) ∧
    (∀ t D, tokenize q = [t] → D ∈ lookupPosting s.postings t →
      (∀ id ∈ lookupPosting s.postings t, id = D) → s.search q = [D]) := by
  have hperm : List.Perm (s.search q)
      ((s.docs.map Prod.fst).filter
        (fun id => decide (0 < matchCount s.postings (tokenize q).dedup id))) := by
    simp only [IndexState.search, rankSort]
    exact perm_rankSortAux _ _ []
  refine ⟨?_, ?_, hperm, ?_, ?_, ?_⟩
  · intro id
    simp only [IndexState.search, rankSort]
    rw [mem_rankSortAux]
    simp only [List.mem_nil_iff, false_or, List.mem_filter, List.mem_map,
      decide_eq_true_eq, matchCount_pos_iff]
    constructor
    · rintro ⟨-, t, ht, hmem⟩
      exact ⟨t, List.mem_dedup.mp ht, hmem⟩
    · rintro ⟨t, ht, hmem⟩
      refine ⟨?_, t, List.mem_dedup.mpr ht, hmem⟩
      rcases mem_lookupPosting _ _ _ hmem with ⟨p, hp, hid⟩
      rcases List.mem_map.mp ((hwf.2 p hp).2 id hid) with ⟨r, hr, hr1⟩
      exact ⟨r, hr, hr1⟩
  · simp only [IndexState.search, rankSort]
    exact pairwise_rankSortAux _ _ [] List.Pairwise.nil
  · exact hperm.nodup_iff.mpr (List.Nodup.filter _ hwf.1)
  · intro k
    simp only [IndexState.search, rankSort]
    exact filter_rankSortAux _ k _ [] List.Pairwise.nil
  · intro t D hq hin honly
    simp only [IndexState.search, rankSort, hq]
    have hded : (List.dedup [t] : List Token) = [t] := by simp
    rw [hded]
    have hcands : (s.docs.map Prod.fst).filter
        (fun id => decide (0 < matchCount s.postings [t] id)) = [D] := by
      apply filter_eq_singleton _ _ _ hwf.1
      · rcases mem_lookupPosting _ _ _ hin with ⟨p, hp, hid⟩
        exact (hwf.2 p hp).2 D hid
      · intro x hx
        rw [decide_eq_true_eq, matchCount_pos_iff]
        constructor
        · rintro ⟨t', ht', hmem⟩
          rw [List.mem_singleton] at ht'
          subst ht'
          exact honly x hmem
        · rintro rfl
          exact ⟨t, List.mem_singleton_self t, hin⟩
    rw [hcands]
    rfl

/-- C3 witness: on an index where token "doe" occurs only in document `1`,
searching "doe" returns `[1]`. -/
theorem search_spec_witness :
    (IndexState.mk [("doe", [1])] [(1, ["doe"])] : IndexState Nat).search "doe" = [1] :=
  (search_spec (IndexState.mk [("doe", [1])] [(1, ["doe"])]) (by decide) "doe").2.2.2.2.2
    "doe" 1 (by decide) (by decide) (by decide)

/-! ## Studio adapter claims -/

/-- C4 counterexample: for the concrete document `exStudioDoc`, whose single
label carries the alias "artsy", the claimed token sequence contains "artsy"
but the sequence produced by the studio index's injected tokenizer does
not. -/
theorem studioTokenizer_claim_false :
    "artsy" ∈ claimedStudioTokens exStudioDoc ∧ "artsy" ∉ studioTokenizer exStudioDoc := by
  decide

/-- C4 amended: the token sequence fed to the index consists of the tokens of
the primary name followed by the tokens of every label name; label aliases,
boolean flags and numeric counts contribute no tokens — any two documents
agreeing on the name and the label names tokenize identically. -/
theorem studioTokenizer_amended (d₁ d₂ : IStudioSearchDoc)
    (hn : d₁.name = d₂.name)
    (hl : d₁.labels.map (fun l => l.name) = d₂.labels.map (fun l => l.name)) :
    studioTokenizer d₁ = studioTokenizer d₂ ∧
    studioTokenizer d₁ = tokenize d₁.name ++ tokenizeNames (d₁.labels.map (fun l => l.name)) := by
  refine ⟨?_, rfl⟩
  simp [studioTokenizer, hn, hl]

/-- C4 amended witness: flipping flags, counts and aliases leaves the token
sequence unchanged. -/
theorem studioTokenizer_amended_witness :
    studioTokenizer exStudioDoc =
      studioTokenizer
        { exStudioDoc with
          bookmark := true
          numScenes := 7
          labels := [{ exLabel with aliases := [] }] } :=
  (studioTokenizer_amended exStudioDoc
    { exStudioDoc with
      bookmark := true
      numScenes := 7
      labels := [{ exLabel with aliases := [] }] } rfl rfl).1

/-- C5 counterexample: with entity `0` failing adaptation and entity `1`
succeeding, rebuilding from the corpus `[0, 1]` stops at the failure: the
error propagates and entity `1`, although it adapts successfully, is never
added to the index. -/
theorem buildLoop_claim_false :
    exAdapt 1 = Except.ok exStudioDoc2 ∧
    (buildLoop exAdapt emptyIndex [0, 1]).2 = some "label vanished" ∧
    (buildLoop exAdapt emptyIndex [0, 1]).1.isIndexed "s2" = false :=
  ⟨rfl, rfl, rfl⟩

/-- C5 amended: `buildIndex` aborts at the first adaptation failure instead
of skipping it: entities adapted before the failure are in the index, the
error propagates, and the failing entity and all later entities are not
processed. -/
theorem buildLoop_aborts {E : Type} (adapt : E → Except String IStudioSearchDoc)
    (s : IndexState String) (pre : List E) (e : E) (post : List E) (err : String)
    (hpre : ∀ x ∈ pre, ∃ d, adapt x = Except.ok d)
    (he : adapt e = Except.error err) :
    buildLoop adapt s (pre ++ e :: post) = ((buildLoop adapt s pre).1, some err) := by
  induction pre generalizing s with
  | nil => simp only [List.nil_append, buildLoop, he]
  | cons x xs ih =>
    rcases hpre x (List.mem_cons_self x xs) with ⟨d, hd⟩
    simp only [List.cons_append, buildLoop, hd]
    exact ih _ (fun y hy => hpre y (List.mem_cons_of_mem x hy))

/-- C5 amended witness: rebuilding over `[1, 0, 2]`, where entity `0` fails
adaptation, stops after processing `[1]` and propagates the error. -/
theorem buildLoop_aborts_witness :
    buildLoop exAdapt emptyIndex ([1] ++ 0 :: [2])
      = ((buildLoop exAdapt emptyIndex [1]).1, some "label vanished") :=
  buildLoop_aborts exAdapt emptyIndex [1] 0 [2] "label vanished"
    (fun x hx => ⟨exStudioDoc2, by
      rw [List.mem_singleton] at hx
      subst hx
      rfl⟩) rfl

end PV
